import Mathlib

/-!
Verification of the molecular-design steering-engine demo
(`molecular-design-parsl-demo`): the resource counter, the topic task
queue, the `RandomThinker` agents from the Colmena notebook, the batch
replacement loop from the Parsl notebook, and the persisted result log.

The notebook drives the engine through `colmena`'s `ResourceCounter`,
`PipeQueues` and `Result` classes, whose implementations are not part of
this repository; those are modelled here from the specification (§4.1,
§4.2, §6 of the spec), while the `RandomThinker` methods and the batch
replacement loop are translated directly from the notebook cells.
-/

namespace MolDesign

/-- Modelled from the spec: `colmena.thinker.resources.ResourceCounter`
(spec §4.1, §3 "Resource Pool State"), whose implementation is not in this
repository.  A fixed pool of worker slots arbitrated among task-type
labels: each label holds `available` slots (allocated to the label, not in
use) and `inUse` slots (acquired by an agent); the rest of the pool is
`unallocated`.  Counts are integers so that "never negative" is a real
property of the operations rather than of the encoding. -/
structure ResourceCounter where
  labels : List String
  available : String → Int
  inUse : String → Int
  unallocated : Int

/-- `ResourceCounter(total_slots, task_types)`: every slot starts in the
unallocated pool.  Duplicate task-type labels collapse, as keys of a
mapping do. -/
def ResourceCounter.init (total : Nat) (labels : List String) : ResourceCounter :=
  { labels := labels.dedup
    available := fun _ => 0
    inUse := fun _ => 0
    unallocated := total }

/-- The number of slots currently allocated to a label: those held by the
label and free plus those acquired under it. -/
def ResourceCounter.allocated (rc : ResourceCounter) (l : String) : Int :=
  rc.available l + rc.inUse l

/-- Modelled from the spec: `acquire(label, n)` blocks until `n` slots are
available under `label`, then atomically marks them allocated (in use).
The model returns `none` when the request is not satisfiable in the
current state (the caller would still be blocked). -/
def ResourceCounter.acquire (rc : ResourceCounter) (l : String) (n : Nat) :
    Option ResourceCounter :=
  if l ∈ rc.labels ∧ (n : Int) ≤ rc.available l then
    some { rc with
            available := Function.update rc.available l (rc.available l - n)
            inUse := Function.update rc.inUse l (rc.inUse l + n) }
  else none

/-- Modelled from the spec: `release(label, n)` atomically marks `n`
previously-acquired slots under `label` as free again and wakes blocked
acquirers of that label.  Releasing more slots than are currently held is
an error (`none`): the operation fails loudly rather than clamping. -/
def ResourceCounter.release (rc : ResourceCounter) (l : String) (n : Nat) :
    Option ResourceCounter :=
  if l ∈ rc.labels ∧ (n : Int) ≤ rc.inUse l then
    some { rc with
            available := Function.update rc.available l (rc.available l + n)
            inUse := Function.update rc.inUse l (rc.inUse l - n) }
  else none

/-- Modelled from the spec: `reallocate(from, to, n)` atomically moves `n`
slots into `to_label`, taking them from the unallocated pool when `from`
is the sentinel `None`, and from `from_label`'s free slots otherwise;
it fails (`none`) when the source does not hold `n` slots. -/
def ResourceCounter.reallocate (rc : ResourceCounter) (src : Option String)
    (dst : String) (n : Nat) : Option ResourceCounter :=
  match src with
  | none =>
    if dst ∈ rc.labels ∧ (n : Int) ≤ rc.unallocated then
      some { rc with
              unallocated := rc.unallocated - n
              available := Function.update rc.available dst (rc.available dst + n) }
    else none
  | some f =>
    if f ∈ rc.labels ∧ dst ∈ rc.labels ∧ (n : Int) ≤ rc.available f then
      let av1 := Function.update rc.available f (rc.available f - n)
      some { rc with available := Function.update av1 dst (av1 dst + n) }
    else none

/-- Slots allocated across all labels, plus the unallocated pool. -/
def ResourceCounter.total (rc : ResourceCounter) : Int :=
  rc.unallocated + (rc.labels.map rc.allocated).sum

/-- One operation of the resource-counter interface. -/
inductive RCOp where
  | acq (l : String) (n : Nat)
  | rel (l : String) (n : Nat)
  | realloc (src : Option String) (dst : String) (n : Nat)

/-- Apply one operation; `none` models an error raised to (or a block of)
the calling agent, with the counter state unchanged. -/
def ResourceCounter.apply (rc : ResourceCounter) : RCOp → Option ResourceCounter
  | .acq l n => rc.acquire l n
  | .rel l n => rc.release l n
  | .realloc s d n => rc.reallocate s d n

/-- Run a sequence of operations; a failed operation leaves the state
unchanged (the error propagates to the caller, not into the counter). -/
def ResourceCounter.run (rc : ResourceCounter) (ops : List RCOp) : ResourceCounter :=
  ops.foldl (fun rc op => (rc.apply op).getD rc) rc

/-- The state invariant of the resource pool (spec §3): well-formed label
set, conservation of the total, and non-negativity of every pool. -/
def RCInv (N : Nat) (rc : ResourceCounter) : Prop :=
  rc.labels.Nodup ∧ rc.total = N ∧ 0 ≤ rc.unallocated ∧
    (∀ l, 0 ≤ rc.available l) ∧ (∀ l, 0 ≤ rc.inUse l)

/-- Modelled from the spec: `colmena.models.Result` (spec §3 "Task Result",
§6 record schema), whose implementation is not in this repository.  A task
result echoes the method and positional inputs, carries a success flag, a
value (meaningful iff success) or a failure description (meaningful iff not
success), and the eligible/started/finished timestamps.  Values and
timestamps are opaque to the engine; they are modelled as strings and
naturals. -/
structure Result where
  method : String
  args : List String
  success : Bool
  value : String
  failure_info : String
  time_eligible : Nat
  time_started : Nat
  time_finished : Nat
deriving DecidableEq

/-- Modelled from the spec: the result side of `colmena.queue.python.
PipeQueues` (spec §4.2), whose implementation is not in this repository.
The buffered result stream is a list of (topic, result) pairs in completion
order; `queueReceive` delivers the first buffered result tagged with the
requested topic and leaves every other entry in place, and returns `none`
(the distinguished timeout outcome) when no such result is buffered. -/
def queueReceive : List (String × Result) → String → Option (Result × List (String × Result))
  | [], _ => none
  | (t', r) :: rest, t =>
    if t' = t then some (r, rest)
    else
      match queueReceive rest t with
      | none => none
      | some (r', rest') => some (r', (t', r) :: rest')

/-- One client-visible operation on the result stream: the backend
completing a task submitted under a topic, or an agent calling
`receive(topic, timeout)`. -/
inductive QOp where
  | submit (topic : String) (r : Result)
  | recv (topic : String)

/-- The observable queue state: the buffered results and the log of
(requested topic, result) pairs handed out by `receive` calls. -/
structure QueueState where
  buffer : List (String × Result)
  delivered : List (String × Result)

/-- A completed task appends its tagged result to the buffer; a `receive`
removes the first matching result and hands it to the caller, and is a
no-op on timeout. -/
def QueueState.step (q : QueueState) : QOp → QueueState
  | .submit t r => { q with buffer := q.buffer ++ [(t, r)] }
  | .recv t =>
    match queueReceive q.buffer t with
    | none => q
    | some (r, buf') => { buffer := buf', delivered := q.delivered ++ [(t, r)] }

def QueueState.run (q : QueueState) (ops : List QOp) : QueueState :=
  ops.foldl QueueState.step q

/-- The results tagged with a given topic, in order. -/
def topicEntries (t : String) : List (String × Result) → List Result
  | [] => []
  | (t', r) :: xs =>
    if t' = t then r :: topicEntries t xs else topicEntries t xs

/-- The (topic, result) pairs submitted by a trace, in order. -/
def submitsOf (ops : List QOp) : List (String × Result) :=
  ops.filterMap fun op =>
    match op with
    | .submit t r => some (t, r)
    | .recv _ => none

/-- A concrete pool state used to instantiate theorems with hypotheses:
three labels with one free and two acquired slots under `simulate`, and
one unallocated slot (total four). -/
def rcSample : ResourceCounter :=
  { labels := ["simulate", "train", "infer"]
    available := fun l => if l = "simulate" then 1 else 0
    inUse := fun l => if l = "simulate" then 2 else 0
    unallocated := 1 }

/-- Python dict insertion `db[k] = v` on an insertion-ordered association
list: replace the value in place when the key exists, append otherwise. -/
def dbInsert (db : List (String × String)) (k v : String) : List (String × String) :=
  if db.any fun p => p.1 = k then
    db.map fun p => if p.1 = k then (k, v) else p
  else db ++ [(k, v)]

/-- The shared state of `RandomThinker` (translated from the notebook
class): the resource counter, the target count, the database of evaluated
molecules, the record of completed calculations, the priority list, the
requests sent to the task server via `send_inputs`, the warnings logged on
failures, and the one-shot `done` event.  The graphical progress bars are
pure display and are omitted. -/
structure ThinkerState where
  rc : ResourceCounter
  n_to_evaluate : Nat
  database : List (String × String)
  simulation_results : List Result
  priority_list : List String
  requests : List String
  warnings : List String
  done : Bool

/-- `RandomThinker.__init__`: a `ResourceCounter(n_parallel, ['simulate',
'train', 'infer'])`, empty database and result record, and all resources
reallocated from the unallocated pool over to `simulate`.  The source
builds `priority_list` by shuffling `list(set(molecule_list))`; the shuffled
list is taken here as the `priority_list` parameter (any permutation of the
deduplicated molecule list). -/
def RandomThinker.init (n_to_evaluate n_parallel : Nat)
    (priority_list : List String) : ThinkerState :=
  let rc0 := ResourceCounter.init n_parallel ["simulate", "train", "infer"]
  { rc := (rc0.reallocate none "simulate" n_parallel).getD rc0
    n_to_evaluate := n_to_evaluate
    database := []
    simulation_results := []
    priority_list := priority_list
    requests := []
    warnings := []
    done := false }

/-- `RandomThinker.submit_calc` (translated from the notebook): the
`task_submitter(task_type='simulate', n_slots=1)` decorator acquires one
`simulate` slot, then the body pops the next molecule off the end of the
priority list (an unchecked `list.pop()`) and submits it through
`send_inputs`.  `none` models the step not completing: the acquisition
still blocking, or `pop` raising `IndexError` on an empty list. -/
def RandomThinker.submit_calc (s : ThinkerState) : Option ThinkerState :=
  match s.rc.acquire "simulate" 1 with
  | none => none
  | some rc' =>
    match s.priority_list.getLast? with
    | none => none
    | some next_mol =>
      some { s with
              rc := rc'
              priority_list := s.priority_list.dropLast
              requests := s.requests ++ [next_mol] }

/-- `RandomThinker.receive_calc` (translated from the notebook): first
release the `simulate` slot; if the result is successful store its value
in the database keyed by `result.args[0]` and set the `done` event when
the database has at least `n_to_evaluate` entries; otherwise log the
failure; in both cases append the result object to `simulation_results`.
`none` models the agent raising: a release accounting fault, or
`IndexError` on `result.args[0]` with empty `args`. -/
def RandomThinker.receive_calc (s : ThinkerState) (result : Result) :
    Option ThinkerState :=
  match s.rc.release "simulate" 1 with
  | none => none
  | some rc' =>
    if result.success then
      match result.args with
      | [] => none
      | a :: _ =>
        let db' := dbInsert s.database a result.value
        some { s with
                rc := rc'
                database := db'
                done := s.done || decide (s.n_to_evaluate ≤ db'.length)
                simulation_results := s.simulation_results ++ [result] }
    else
      some { s with
              rc := rc'
              warnings := s.warnings ++ [result.failure_info]
              simulation_results := s.simulation_results ++ [result] }

/-- One scheduling step of the two agents: the submitting agent firing, or
the result-processing agent consuming a completed result. -/
inductive ThinkerEvent where
  | submit
  | receive (r : Result)

def ThinkerState.step (s : ThinkerState) : ThinkerEvent → Option ThinkerState
  | .submit => RandomThinker.submit_calc s
  | .receive r => RandomThinker.receive_calc s r

/-- Run the two agents under an arbitrary interleaving; a step that faults
leaves the shared state unchanged. -/
def ThinkerState.run (s : ThinkerState) (es : List ThinkerEvent) : ThinkerState :=
  es.foldl (fun s e => (s.step e).getD s) s

/-- Consume a sequence of results through `receive_calc`, propagating a
raise at any step. -/
def runReceives (s : ThinkerState) : List Result → Option ThinkerState
  | [] => some s
  | r :: rs =>
    match RandomThinker.receive_calc s r with
    | none => none
    | some s' => runReceives s' rs

/-- The state of the replacement loop of the Parsl notebook: the pending
simulation futures (identified by their input molecule) and the
accumulated training records. -/
structure BatchLoopState where
  sim_futures : List String
  train_data : List (String × String)

/-- One iteration of the replacement loop (translated from the Parsl
notebook): the completed future is removed from the pending list; when it
raised an exception a freshly sampled replacement molecule is submitted in
its place, and when it succeeded its row is appended to the training
data. -/
def batchLoopStep (s : BatchLoopState) (completed : String)
    (outcome : Option String) (replacement : String) : BatchLoopState :=
  let rest := s.sim_futures.erase completed
  match outcome with
  | none => { s with sim_futures := rest ++ [replacement] }
  | some v => { sim_futures := rest, train_data := s.train_data ++ [(completed, v)] }

/-- A concrete thinker state for instantiating theorems: two in-flight
simulations (matching `rcSample`), an empty database, and a target of
one successful evaluation. -/
def thinkerSample : ThinkerState :=
  { rc := rcSample
    n_to_evaluate := 1
    database := []
    simulation_results := []
    priority_list := ["C"]
    requests := ["O", "N"]
    warnings := []
    done := false }

/-- A successful sample result for the molecule "O". -/
def resultOk : Result :=
  { method := "compute_vertical", args := ["O"], success := true
    value := "12.61", failure_info := "", time_eligible := 3
    time_started := 5, time_finished := 9 }

/-- A failed sample result for the molecule "N". -/
def resultFail : Result :=
  { method := "compute_vertical", args := ["N"], success := false
    value := "", failure_info := "ValueError: could not converge", time_eligible := 2
    time_started := 4, time_finished := 7 }

/-- The coupling invariant of the running `RandomThinker`: a well-formed
resource pool over the three fixed labels, sent requests splitting into
consumed results plus slots currently in use under `simulate`, and the
priority list plus the (reversed) request log reconstructing the initial
candidate list. -/
def TInv (N : Nat) (P : List String) (s : ThinkerState) : Prop :=
  RCInv N s.rc ∧
  s.rc.labels = ["simulate", "train", "infer"] ∧
  (s.requests.length : Int)
    = s.simulation_results.length + s.rc.inUse "simulate" ∧
  s.priority_list ++ s.requests.reverse = P

/-- Modelled from the spec: the persisted record serialization (spec §6:
"one record per Task Result ... serialized as one self-contained record
per line"; the notebook writes `print(result.json(), file=fp)` and reads
back with `pd.read_json(..., lines=True)`, the JSON codec itself living in
the `pydantic` library).  The model renders a record as tab-separated
fields on one line, escaping backslash, tab and newline inside strings so
every record stays self-contained on its line. -/
def escapeChar (c : Char) : List Char :=
  if c = '\\' then ['\\', '\\']
  else if c = '\t' then ['\\', 't']
  else if c = '\n' then ['\\', 'n']
  else [c]

def escape : List Char → List Char
  | [] => []
  | c :: cs => escapeChar c ++ escape cs

def unescape : List Char → List Char
  | [] => []
  | [c] => [c]
  | c :: d :: cs =>
    if c = '\\' then
      (if d = 'n' then '\n' else if d = 't' then '\t' else d) :: unescape cs
    else c :: unescape (d :: cs)

/-- Join fields with a separator character. -/
def joinSep (sep : Char) : List (List Char) → List Char
  | [] => []
  | [f] => f
  | f :: fs => f ++ sep :: joinSep sep fs

/-- Split on a separator character (inverse of `joinSep` on nonempty
field lists free of the separator). -/
def splitSep (sep : Char) : List Char → List (List Char)
  | [] => [[]]
  | c :: cs =>
    if c = sep then [] :: splitSep sep cs
    else
      match splitSep sep cs with
      | [] => [[c]]
      | f :: fs => (c :: f) :: fs

/-- Base-10 digits of `n`, least significant first, with explicit fuel so
evaluation is structural. -/
def natDigitsAux : Nat → Nat → List Nat
  | _, 0 => []
  | 0, _ + 1 => []
  | fuel + 1, n + 1 => ((n + 1) % 10) :: natDigitsAux fuel ((n + 1) / 10)

def ofDigits10 : List Nat → Nat
  | [] => 0
  | d :: ds => d + 10 * ofDigits10 ds

def digitChar (d : Nat) : Char := Char.ofNat (48 + d)

def charDigit (c : Char) : Nat := c.toNat - 48

/-- A natural number as a digit field (least significant digit first). -/
def encNat (n : Nat) : List Char := (natDigitsAux n n).map digitChar

def decNat (cs : List Char) : Nat := ofDigits10 (cs.map charDigit)

def encBool : Bool → List Char
  | true => ['1']
  | false => ['0']

def decBool (cs : List Char) : Bool := decide (cs = ['1'])

/-- The serialized fields of one persisted record: method, argument
count, the arguments, the success flag, value, failure description, and
the eligible/started/finished timestamps. -/
def resultFields (r : Result) : List (List Char) :=
  escape r.method.data :: encNat r.args.length ::
    (r.args.map (fun a => escape a.data) ++
      [encBool r.success, escape r.value.data, escape r.failure_info.data,
        encNat r.time_eligible, encNat r.time_started, encNat r.time_finished])

/-- One record, serialized as a single line. -/
def encodeResult (r : Result) : List Char := joinSep '\t' (resultFields r)

/-- Parse one line back into a record. -/
def decodeResult (cs : List Char) : Option Result :=
  match splitSep '\t' cs with
  | m :: cnt :: rest =>
    let k := decNat cnt
    match rest.drop k with
    | [su, v, fi, t1, t2, t3] =>
      some { method := String.mk (unescape m)
             args := (rest.take k).map fun f => String.mk (unescape f)
             success := decBool su
             value := String.mk (unescape v)
             failure_info := String.mk (unescape fi)
             time_eligible := decNat t1
             time_started := decNat t2
             time_finished := decNat t3 }
    | _ => none
  | _ => none

/-- The persisted file: one record per line. -/
def encodeFile (rs : List Result) : List Char := joinSep '\n' (rs.map encodeResult)

def decodeLines : List (List Char) → Option (List Result)
  | [] => some []
  | l :: ls =>
    match decodeResult l, decodeLines ls with
    | some r, some rs => some (r :: rs)
    | _, _ => none

/-- Parse the persisted file line by line. -/
def decodeFile (cs : List Char) : Option (List Result) :=
  if cs = [] then some [] else decodeLines (splitSep '\n' cs)

/-- The resource pool after `rcSample` releases one `simulate` slot. -/
def rcSampleReleased : ResourceCounter :=
  { labels := ["simulate", "train", "infer"]
    available := Function.update rcSample.available "simulate"
      (rcSample.available "simulate" + (1 : Nat))
    inUse := Function.update rcSample.inUse "simulate"
      (rcSample.inUse "simulate" - (1 : Nat))
    unallocated := 1 }

/-- A concrete batch-loop state with two pending futures. -/
def batchSample : BatchLoopState :=
  { sim_futures := ["C", "N"], train_data := [("O", "10.95")] }

theorem map_update_of_not_mem {L : List String} {f : String → Int} {x : String}
    (hx : x ∉ L) (v : Int) : L.map (Function.update f x v) = L.map f := by
  induction L with
  | nil => rfl
  | cons h t ih =>
    simp only [List.mem_cons, not_or] at hx
    simp [Function.update_noteq (Ne.symm hx.1), ih hx.2]

theorem sum_map_update (L : List String) (f : String → Int) (x : String) (v : Int)
    (hnd : L.Nodup) (hx : x ∈ L) :
    (L.map (Function.update f x v)).sum = (L.map f).sum + (v - f x) := by
  induction L with
  | nil => cases hx
  | cons h t ih =>
    rcases List.nodup_cons.mp hnd with ⟨hht, hts⟩
    rcases List.mem_cons.mp hx with rfl | hxt
    · simp only [List.map_cons, List.sum_cons, Function.update_same,
        map_update_of_not_mem hht]
      ring
    · have hne : h ≠ x := fun e => hht (e ▸ hxt)
      simp only [List.map_cons, List.sum_cons, Function.update_noteq hne,
        ih hts hxt]
      ring

theorem sum_map_zero (L : List String) : (L.map fun _ => (0 : Int)).sum = 0 := by
  induction L <;> simp [*]

/-- `allocated` as an explicit function of the two per-label pools. -/
theorem allocated_def (rc : ResourceCounter) :
    rc.allocated = fun x => rc.available x + rc.inUse x := rfl

theorem update_add_update (f g : String → Int) (l : String) (a b : Int) :
    (fun x => Function.update f l a x + Function.update g l b x)
      = Function.update (fun x => f x + g x) l (a + b) := by
  funext x
  by_cases hx : x = l
  · subst hx; simp
  · simp [Function.update_noteq hx]

theorem update_add_right (f g : String → Int) (l : String) (a : Int) :
    (fun x => Function.update f l a x + g x)
      = Function.update (fun x => f x + g x) l (a + g l) := by
  funext x
  by_cases hx : x = l
  · subst hx; simp
  · simp [Function.update_noteq hx]

theorem acquire_some {rc rc' : ResourceCounter} {l : String} {n : Nat}
    (h : rc.acquire l n = some rc') :
    l ∈ rc.labels ∧ (n : Int) ≤ rc.available l ∧ rc'.labels = rc.labels ∧
    rc'.available = Function.update rc.available l (rc.available l - n) ∧
    rc'.inUse = Function.update rc.inUse l (rc.inUse l + n) ∧
    rc'.unallocated = rc.unallocated := by
  unfold ResourceCounter.acquire at h
  split at h
  · rename_i hc
    cases h
    exact ⟨hc.1, hc.2, rfl, rfl, rfl, rfl⟩
  · exact Option.noConfusion h

theorem release_some {rc rc' : ResourceCounter} {l : String} {n : Nat}
    (h : rc.release l n = some rc') :
    l ∈ rc.labels ∧ (n : Int) ≤ rc.inUse l ∧ rc'.labels = rc.labels ∧
    rc'.available = Function.update rc.available l (rc.available l + n) ∧
    rc'.inUse = Function.update rc.inUse l (rc.inUse l - n) ∧
    rc'.unallocated = rc.unallocated := by
  unfold ResourceCounter.release at h
  split at h
  · rename_i hc
    cases h
    exact ⟨hc.1, hc.2, rfl, rfl, rfl, rfl⟩
  · exact Option.noConfusion h

theorem reallocate_none_some {rc rc' : ResourceCounter} {dst : String} {n : Nat}
    (h : rc.reallocate none dst n = some rc') :
    dst ∈ rc.labels ∧ (n : Int) ≤ rc.unallocated ∧ rc'.labels = rc.labels ∧
    rc'.available = Function.update rc.available dst (rc.available dst + n) ∧
    rc'.inUse = rc.inUse ∧
    rc'.unallocated = rc.unallocated - n := by
  simp only [ResourceCounter.reallocate] at h
  by_cases hc : dst ∈ rc.labels ∧ (n : Int) ≤ rc.unallocated
  · rw [if_pos hc] at h
    cases h
    exact ⟨hc.1, hc.2, rfl, rfl, rfl, rfl⟩
  · rw [if_neg hc] at h
    exact Option.noConfusion h

theorem reallocate_some_some {rc rc' : ResourceCounter} {f dst : String} {n : Nat}
    (h : rc.reallocate (some f) dst n = some rc') :
    f ∈ rc.labels ∧ dst ∈ rc.labels ∧ (n : Int) ≤ rc.available f ∧
    rc'.labels = rc.labels ∧
    rc'.available =
      (Function.update (Function.update rc.available f (rc.available f - n)) dst
        (Function.update rc.available f (rc.available f - n) dst + n)) ∧
    rc'.inUse = rc.inUse ∧
    rc'.unallocated = rc.unallocated := by
  simp only [ResourceCounter.reallocate] at h
  by_cases hc : f ∈ rc.labels ∧ dst ∈ rc.labels ∧ (n : Int) ≤ rc.available f
  · rw [if_pos hc] at h
    cases h
    exact ⟨hc.1, hc.2.1, hc.2.2, rfl, rfl, rfl, rfl⟩
  · rw [if_neg hc] at h
    exact Option.noConfusion h

theorem sum_nonneg_of_mem {L : List String} {f : String → Int}
    (h : ∀ l ∈ L, 0 ≤ f l) : 0 ≤ (L.map f).sum := by
  induction L with
  | nil => simp
  | cons a t ih =>
    simp only [List.map_cons, List.sum_cons]
    have := h a (List.mem_cons_self a t)
    have := ih fun l hl => h l (List.mem_cons_of_mem a hl)
    omega

theorem le_sum_of_mem {L : List String} {f : String → Int} {x : String}
    (hx : x ∈ L) (h : ∀ l ∈ L, 0 ≤ f l) : f x ≤ (L.map f).sum := by
  induction L with
  | nil => cases hx
  | cons a t ih =>
    simp only [List.map_cons, List.sum_cons]
    rcases List.mem_cons.mp hx with rfl | hxt
    · have := sum_nonneg_of_mem fun l hl => h l (List.mem_cons_of_mem x hl)
      omega
    · have := ih hxt fun l hl => h l (List.mem_cons_of_mem a hl)
      have := h a (List.mem_cons_self a t)
      omega

theorem RCInv.init (N : Nat) (labels : List String) :
    RCInv N (ResourceCounter.init N labels) := by
  refine ⟨labels.nodup_dedup, ?_, Int.natCast_nonneg N, fun _ => le_refl 0,
    fun _ => le_refl 0⟩
  unfold ResourceCounter.total
  rw [allocated_def]
  show (N : Int) + (labels.dedup.map fun _ => (0 : Int) + 0).sum = N
  simp [sum_map_zero]

theorem RCInv.acquire {N : Nat} {rc rc' : ResourceCounter} {l : String} {n : Nat}
    (hinv : RCInv N rc) (h : rc.acquire l n = some rc') : RCInv N rc' := by
  obtain ⟨hmem, hle, hlab, hava, hiua, huna⟩ := acquire_some h
  obtain ⟨hnd, htot, hun, hav, hiu⟩ := hinv
  unfold ResourceCounter.total at htot
  rw [allocated_def] at htot
  have htot' : rc'.total = N := by
    unfold ResourceCounter.total
    rw [allocated_def, hlab, huna, hava, hiua, update_add_update,
      sum_map_update _ _ _ _ hnd hmem]
    omega
  refine ⟨hlab ▸ hnd, htot', huna ▸ hun, ?_, ?_⟩
  · intro x
    rw [hava]
    by_cases hx : x = l
    · rw [hx, Function.update_same]; omega
    · rw [Function.update_noteq hx]; exact hav x
  · intro x
    rw [hiua]
    by_cases hx : x = l
    · rw [hx, Function.update_same]
      have := hiu l
      omega
    · rw [Function.update_noteq hx]; exact hiu x

theorem RCInv.release {N : Nat} {rc rc' : ResourceCounter} {l : String} {n : Nat}
    (hinv : RCInv N rc) (h : rc.release l n = some rc') : RCInv N rc' := by
  obtain ⟨hmem, hle, hlab, hava, hiua, huna⟩ := release_some h
  obtain ⟨hnd, htot, hun, hav, hiu⟩ := hinv
  unfold ResourceCounter.total at htot
  rw [allocated_def] at htot
  have htot' : rc'.total = N := by
    unfold ResourceCounter.total
    rw [allocated_def, hlab, huna, hava, hiua, update_add_update,
      sum_map_update _ _ _ _ hnd hmem]
    omega
  refine ⟨hlab ▸ hnd, htot', huna ▸ hun, ?_, ?_⟩
  · intro x
    rw [hava]
    by_cases hx : x = l
    · rw [hx, Function.update_same]
      have := hav l
      omega
    · rw [Function.update_noteq hx]; exact hav x
  · intro x
    rw [hiua]
    by_cases hx : x = l
    · rw [hx, Function.update_same]; omega
    · rw [Function.update_noteq hx]; exact hiu x

theorem RCInv.reallocate {N : Nat} {rc rc' : ResourceCounter} {src : Option String}
    {dst : String} {n : Nat}
    (hinv : RCInv N rc) (h : rc.reallocate src dst n = some rc') : RCInv N rc' := by
  obtain ⟨hnd, htot, hun, hav, hiu⟩ := hinv
  match src with
  | none =>
    obtain ⟨hmem, hle, hlab, hava, hiua, huna⟩ := reallocate_none_some h
    unfold ResourceCounter.total at htot
    rw [allocated_def] at htot
    have htot' : rc'.total = N := by
      unfold ResourceCounter.total
      rw [allocated_def, hlab, huna, hava, hiua, update_add_right,
        sum_map_update _ _ _ _ hnd hmem]
      omega
    refine ⟨hlab ▸ hnd, htot', by rw [huna]; omega, ?_, hiua ▸ hiu⟩
    intro x
    rw [hava]
    by_cases hx : x = dst
    · rw [hx, Function.update_same]
      have := hav dst
      omega
    · rw [Function.update_noteq hx]; exact hav x
  | some f =>
    obtain ⟨hmemf, hmemd, hle, hlab, hava, hiua, huna⟩ := reallocate_some_some h
    have hstep : ∀ x, 0 ≤ Function.update rc.available f (rc.available f - n) x := by
      intro x
      by_cases hx : x = f
      · rw [hx, Function.update_same]; omega
      · rw [Function.update_noteq hx]; exact hav x
    unfold ResourceCounter.total at htot
    rw [allocated_def] at htot
    have htot' : rc'.total = N := by
      unfold ResourceCounter.total
      rw [allocated_def, hlab, huna, hava, hiua, update_add_right,
        sum_map_update _ _ _ _ hnd hmemd, update_add_right,
        sum_map_update _ _ _ _ hnd hmemf]
      omega
    refine ⟨hlab ▸ hnd, htot', huna ▸ hun, ?_, hiua ▸ hiu⟩
    intro x
    rw [hava]
    by_cases hx : x = dst
    · rw [hx, Function.update_same]
      have := hstep dst
      omega
    · rw [Function.update_noteq hx]
      exact hstep x

theorem RCInv.apply {N : Nat} {rc rc' : ResourceCounter} {op : RCOp}
    (hinv : RCInv N rc) (h : rc.apply op = some rc') : RCInv N rc' := by
  cases op with
  | acq l n => exact hinv.acquire h
  | rel l n => exact hinv.release h
  | realloc s d n => exact hinv.reallocate h

theorem RCInv.step {N : Nat} {rc : ResourceCounter} (op : RCOp)
    (hinv : RCInv N rc) : RCInv N ((rc.apply op).getD rc) := by
  cases hop : rc.apply op with
  | none => simpa using hinv
  | some rc' => simpa using hinv.apply hop

theorem RCInv.run {N : Nat} {rc : ResourceCounter} (ops : List RCOp)
    (hinv : RCInv N rc) : RCInv N (rc.run ops) := by
  induction ops generalizing rc with
  | nil => exact hinv
  | cons op ops ih => exact ih (hinv.step op)

/-- C1: starting from a pool of `N` worker slots, under any sequence of
acquire, release and reallocate operations, the sum of the slots allocated
across all labels plus the unallocated slots equals `N`, and no label's
allocated count (nor any per-label or unallocated pool) is ever
negative. -/
theorem resource_counter_conservation (N : Nat) (labels : List String) (ops : List RCOp) :
    ((ResourceCounter.init N labels).run ops).unallocated +
      (((ResourceCounter.init N labels).run ops).labels.map
        ((ResourceCounter.init N labels).run ops).allocated).sum = N ∧
    (∀ l, 0 ≤ ((ResourceCounter.init N labels).run ops).allocated l) := by
  have hinv := RCInv.run ops (RCInv.init N labels)
  obtain ⟨hnd, htot, hun, hav, hiu⟩ := hinv
  refine ⟨htot, fun l => ?_⟩
  have := hav l
  have := hiu l
  unfold ResourceCounter.allocated
  omega

/-- C5: releasing more slots than a label currently holds is an error that
fails loudly: `release(l, n)` returns the error outcome whenever fewer than
`n` slots are allocated to `l`; a successful release decrements the
acquired count by exactly `n` (no silent clamping); and two consecutive
releases with no intervening acquire or reallocate can never return more
slots than were acquired, so an already-released slot cannot be released
again. -/
theorem release_error_no_clamp (rc : ResourceCounter) (l : String) (n m : Nat)
    (hav : 0 ≤ rc.available l) :
    (rc.allocated l < n → rc.release l n = none) ∧
    (∀ rc', rc.release l n = some rc' → rc'.inUse l = rc.inUse l - n) ∧
    (∀ rc' rc'', rc.release l n = some rc' → rc'.release l m = some rc'' →
      (n : Int) + m ≤ rc.inUse l) := by
  refine ⟨?_, ?_, ?_⟩
  · intro hlt
    unfold ResourceCounter.release
    rw [if_neg]
    rintro ⟨-, hle⟩
    unfold ResourceCounter.allocated at hlt
    omega
  · intro rc' h
    obtain ⟨-, -, -, -, hiua, -⟩ := release_some h
    rw [hiua, Function.update_same]
  · intro rc' rc'' h h'
    obtain ⟨-, hle, -, -, hiua, -⟩ := release_some h
    obtain ⟨-, hle', -, -, -, -⟩ := release_some h'
    rw [hiua, Function.update_same] at hle'
    omega

/-- Witness for C5 at a concrete pool: one free and two acquired
`simulate` slots; releasing three is refused, releasing exactly what is
held works without clamping, and a double release is impossible. -/
theorem release_error_no_clamp_witness :
    (0 : Int) ≤ rcSample.available "simulate" ∧
    ((rcSample.allocated "simulate" < 3 → rcSample.release "simulate" 3 = none) ∧
    (∀ rc', rcSample.release "simulate" 3 = some rc' →
      rc'.inUse "simulate" = rcSample.inUse "simulate" - 3) ∧
    (∀ rc' rc'', rcSample.release "simulate" 3 = some rc' →
        rc'.release "simulate" 2 = some rc'' →
      (3 : Int) + 2 ≤ rcSample.inUse "simulate")) :=
  ⟨by decide, release_error_no_clamp rcSample "simulate" 3 2 (by decide)⟩

theorem topicEntries_cons (t t' : String) (r : Result) (xs : List (String × Result)) :
    topicEntries t ((t', r) :: xs)
      = if t' = t then r :: topicEntries t xs else topicEntries t xs := rfl

theorem topicEntries_append (t : String) (xs ys : List (String × Result)) :
    topicEntries t (xs ++ ys) = topicEntries t xs ++ topicEntries t ys := by
  induction xs with
  | nil => rfl
  | cons p xs ih =>
    obtain ⟨t', r⟩ := p
    rw [List.cons_append, topicEntries_cons, topicEntries_cons]
    by_cases h : t' = t
    · simp [h, ih]
    · simp [h, ih]

theorem queueReceive_spec {buf : List (String × Result)} {t : String} {r : Result}
    {buf' : List (String × Result)} (h : queueReceive buf t = some (r, buf')) :
    topicEntries t buf = r :: topicEntries t buf' ∧
    (∀ B, B ≠ t → topicEntries B buf = topicEntries B buf') ∧
    (t, r) ∈ buf := by
  induction buf generalizing buf' with
  | nil => exact Option.noConfusion h
  | cons p rest ih =>
    obtain ⟨t', r0⟩ := p
    rw [queueReceive] at h
    by_cases ht : t' = t
    · rw [if_pos ht] at h
      cases h
      subst ht
      refine ⟨?_, ?_, List.mem_cons_self _ _⟩
      · simp [topicEntries_cons]
      · intro B hB
        simp [topicEntries_cons, Ne.symm hB]
    · rw [if_neg ht] at h
      cases hrec : queueReceive rest t with
      | none => rw [hrec] at h; exact Option.noConfusion h
      | some pr =>
        obtain ⟨r', rest'⟩ := pr
        rw [hrec] at h
        cases h
        obtain ⟨h1, h2, h3⟩ := ih hrec
        refine ⟨?_, ?_, List.mem_cons_of_mem _ h3⟩
        · simp only [topicEntries_cons, if_neg ht]
          exact h1
        · intro B hB
          simp only [topicEntries_cons]
          rw [h2 B hB]

theorem queueReceive_sublist {buf : List (String × Result)} {t : String} {r : Result}
    {buf' : List (String × Result)} (h : queueReceive buf t = some (r, buf')) :
    buf'.Sublist buf := by
  induction buf generalizing buf' with
  | nil => exact Option.noConfusion h
  | cons p rest ih =>
    obtain ⟨t', r0⟩ := p
    rw [queueReceive] at h
    by_cases ht : t' = t
    · rw [if_pos ht] at h
      cases h
      exact List.sublist_cons_self _ _
    · rw [if_neg ht] at h
      cases hrec : queueReceive rest t with
      | none => rw [hrec] at h; exact Option.noConfusion h
      | some pr =>
        obtain ⟨r', rest'⟩ := pr
        rw [hrec] at h
        cases h
        exact List.Sublist.cons₂ _ (ih hrec)

theorem qrun_conservation (q : QueueState) (ops : List QOp) (B : String) :
    topicEntries B (q.run ops).delivered ++ topicEntries B (q.run ops).buffer
      = topicEntries B q.delivered ++ topicEntries B q.buffer ++
          topicEntries B (submitsOf ops) := by
  induction ops generalizing q with
  | nil => simp [QueueState.run, submitsOf, topicEntries]
  | cons op ops ih =>
    have hrun : q.run (op :: ops) = (q.step op).run ops := rfl
    rw [hrun, ih]
    cases op with
    | submit t r =>
      have hsub : submitsOf (QOp.submit t r :: ops) = (t, r) :: submitsOf ops := rfl
      rw [hsub]
      show topicEntries B q.delivered ++ topicEntries B (q.buffer ++ [(t, r)]) ++ _ = _
      rw [topicEntries_append, topicEntries_cons]
      show _ = topicEntries B q.delivered ++ topicEntries B q.buffer ++
        topicEntries B ((t, r) :: submitsOf ops)
      rw [topicEntries_cons]
      by_cases ht : t = B
      · simp [ht, topicEntries]
      · simp [ht, topicEntries]
    | recv t =>
      have hsub : submitsOf (QOp.recv t :: ops) = submitsOf ops := rfl
      rw [hsub]
      cases hrec : queueReceive q.buffer t with
      | none =>
        have hstep : QueueState.step q (QOp.recv t) = q := by
          show (match queueReceive q.buffer t with
            | none => q
            | some (r, buf') =>
              { buffer := buf', delivered := q.delivered ++ [(t, r)] }) = q
          rw [hrec]
        rw [hstep]
      | some pr =>
        obtain ⟨r, buf'⟩ := pr
        obtain ⟨h1, h2, -⟩ := queueReceive_spec hrec
        have hstep : QueueState.step q (QOp.recv t) =
            { buffer := buf', delivered := q.delivered ++ [(t, r)] } := by
          show (match queueReceive q.buffer t with
            | none => q
            | some (r, buf') =>
              { buffer := buf', delivered := q.delivered ++ [(t, r)] }) = _
          rw [hrec]
        rw [hstep]
        show topicEntries B (q.delivered ++ [(t, r)]) ++ topicEntries B buf' ++ _ = _
        rw [topicEntries_append, topicEntries_cons]
        by_cases hBt : t = B
        · subst hBt
          rw [if_pos rfl, h1]
          simp [topicEntries]
        · rw [if_neg hBt, h2 B fun e => hBt e.symm]
          simp [topicEntries]

theorem qrun_delivered_submitted (q : QueueState) (ops : List QOp) :
    ∀ p, (p ∈ (q.run ops).delivered → p ∈ q.delivered ∨ p ∈ q.buffer ∨ p ∈ submitsOf ops) ∧
      (p ∈ (q.run ops).buffer → p ∈ q.buffer ∨ p ∈ submitsOf ops) := by
  induction ops generalizing q with
  | nil =>
    intro p
    exact ⟨fun h => Or.inl h, fun h => Or.inl h⟩
  | cons op ops ih =>
    intro p
    have hrun : q.run (op :: ops) = (q.step op).run ops := rfl
    rw [hrun]
    cases op with
    | submit t r =>
      have hsub : submitsOf (QOp.submit t r :: ops) = (t, r) :: submitsOf ops := rfl
      rw [hsub]
      have hstep : QueueState.step q (QOp.submit t r) =
        { q with buffer := q.buffer ++ [(t, r)] } := rfl
      constructor
      · intro hmem
        rcases (ih _ p).1 hmem with h | h | h
        · exact Or.inl h
        · rw [hstep] at h
          rcases List.mem_append.mp h with h | h
          · exact Or.inr (Or.inl h)
          · rcases List.mem_singleton.mp h with rfl
            exact Or.inr (Or.inr (List.mem_cons_self _ _))
        · exact Or.inr (Or.inr (List.mem_cons_of_mem _ h))
      · intro hmem
        rcases (ih _ p).2 hmem with h | h
        · rw [hstep] at h
          rcases List.mem_append.mp h with h | h
          · exact Or.inl h
          · rcases List.mem_singleton.mp h with rfl
            exact Or.inr (List.mem_cons_self _ _)
        · exact Or.inr (List.mem_cons_of_mem _ h)
    | recv t =>
      have hsub : submitsOf (QOp.recv t :: ops) = submitsOf ops := rfl
      rw [hsub]
      cases hrec : queueReceive q.buffer t with
      | none =>
        have hstep : QueueState.step q (QOp.recv t) = q := by
          show (match queueReceive q.buffer t with
            | none => q
            | some (r, buf') =>
              { buffer := buf', delivered := q.delivered ++ [(t, r)] }) = q
          rw [hrec]
        rw [hstep]
        exact ih q p
      | some pr =>
        obtain ⟨r, buf'⟩ := pr
        have hstep : QueueState.step q (QOp.recv t) =
          { buffer := buf', delivered := q.delivered ++ [(t, r)] } := by
          show (match queueReceive q.buffer t with
            | none => q
            | some (r, buf') =>
              { buffer := buf', delivered := q.delivered ++ [(t, r)] }) = _
          rw [hrec]
        obtain ⟨-, -, hmem⟩ := queueReceive_spec hrec
        have hsubl := queueReceive_sublist hrec
        rw [hstep]
        constructor
        · intro hd
          rcases (ih _ p).1 hd with h | h | h
          · rcases List.mem_append.mp h with h | h
            · exact Or.inl h
            · rcases List.mem_singleton.mp h with rfl
              exact Or.inr (Or.inl hmem)
          · exact Or.inr (Or.inl (hsubl.mem h))
          · exact Or.inr (Or.inr h)
        · intro hb
          rcases (ih _ p).2 hb with h | h
          · exact Or.inl (hsubl.mem h)
          · exact Or.inr h

/-- C2: topic isolation and buffering of the result stream.  Over any
trace of interleaved submissions and receives starting from an empty
queue: (1) per topic `B`, the results handed out by `receive(B)` calls
followed by the still-buffered `B` results are exactly the sequence of
results submitted under `B` — nothing is cross-delivered to another topic
and nothing is dropped while no agent waits; and (2) every delivered
(topic, result) pair is literally one of the submitted (topic, result)
pairs, so `receive(A)` never returns a result submitted under `B ≠ A`. -/
theorem topic_isolation_buffering (ops : List QOp) (B : String) :
    (topicEntries B (QueueState.run ⟨[], []⟩ ops).delivered ++
      topicEntries B (QueueState.run ⟨[], []⟩ ops).buffer
        = topicEntries B (submitsOf ops)) ∧
    (∀ p, p ∈ (QueueState.run ⟨[], []⟩ ops).delivered → p ∈ submitsOf ops) := by
  constructor
  · have := qrun_conservation ⟨[], []⟩ ops B
    simpa [topicEntries] using this
  · intro p hp
    rcases (qrun_delivered_submitted ⟨[], []⟩ ops p).1 hp with h | h | h
    · cases h
    · cases h
    · exact h

/-- C6: `receive(topic, timeout)` yields the distinguished "no result"
outcome exactly when no buffered result carries the requested topic — a
normal, total, retryable outcome of the operation (the model's `receive`
is a total function, so the call never blocks forever), and otherwise a
matching result exists and is returned. -/
theorem receive_timeout_no_result (buf : List (String × Result)) (t : String) :
    queueReceive buf t = none ↔ ∀ p ∈ buf, p.1 ≠ t := by
  induction buf with
  | nil => simp [queueReceive]
  | cons p rest ih =>
    obtain ⟨t', r0⟩ := p
    rw [queueReceive]
    by_cases ht : t' = t
    · rw [if_pos ht]
      constructor
      · intro h
        exact Option.noConfusion h
      · intro hall
        exact absurd ht (hall (t', r0) (List.mem_cons_self _ _))
    · rw [if_neg ht]
      cases hrec : queueReceive rest t with
      | none =>
        constructor
        · intro _ p hp
          rcases List.mem_cons.mp hp with rfl | hp
          · exact ht
          · exact (ih.mp hrec) p hp
        · intro _
          rfl
      | some pr =>
        obtain ⟨r', rest'⟩ := pr
        constructor
        · intro h
          have h' : some (r', (t', r0) :: rest')
              = (none : Option (Result × List (String × Result))) := h
          exact Option.noConfusion h'
        · intro hall
          have h0 : queueReceive rest t = none :=
            ih.mpr fun p hp => hall p (List.mem_cons_of_mem _ hp)
          rw [h0] at hrec
          exact Option.noConfusion hrec

theorem receive_calc_none {s : ThinkerState} (r : Result)
    (h : s.rc.release "simulate" 1 = none) :
    RandomThinker.receive_calc s r = none := by
  unfold RandomThinker.receive_calc
  rw [h]

theorem receive_calc_success {s : ThinkerState} {r : Result}
    {rc' : ResourceCounter} {a : String} {rest : List String}
    (hrel : s.rc.release "simulate" 1 = some rc')
    (hs : r.success = true) (ha : r.args = a :: rest) :
    RandomThinker.receive_calc s r = some { s with
      rc := rc'
      database := dbInsert s.database a r.value
      done := s.done ||
        decide (s.n_to_evaluate ≤ (dbInsert s.database a r.value).length)
      simulation_results := s.simulation_results ++ [r] } := by
  unfold RandomThinker.receive_calc
  rw [hrel, hs, ha]
  rfl

theorem receive_calc_failure {s : ThinkerState} {r : Result}
    {rc' : ResourceCounter}
    (hrel : s.rc.release "simulate" 1 = some rc')
    (hs : r.success = false) :
    RandomThinker.receive_calc s r = some { s with
      rc := rc'
      warnings := s.warnings ++ [r.failure_info]
      simulation_results := s.simulation_results ++ [r] } := by
  unfold RandomThinker.receive_calc
  rw [hrel, hs]
  rfl

theorem receive_calc_some {s : ThinkerState} {r : Result} {s' : ThinkerState}
    (h : RandomThinker.receive_calc s r = some s') :
    s.rc.release "simulate" 1 = some s'.rc ∧
    (r.success = true → ∃ a rest, r.args = a :: rest ∧
      s'.database = dbInsert s.database a r.value ∧
      s'.done = (s.done ||
        decide (s.n_to_evaluate ≤ (dbInsert s.database a r.value).length)) ∧
      s'.simulation_results = s.simulation_results ++ [r] ∧
      s'.n_to_evaluate = s.n_to_evaluate) ∧
    (r.success = false → s'.database = s.database ∧ s'.done = s.done ∧
      s'.warnings = s.warnings ++ [r.failure_info] ∧
      s'.simulation_results = s.simulation_results ++ [r] ∧
      s'.n_to_evaluate = s.n_to_evaluate) := by
  cases hrel : s.rc.release "simulate" 1 with
  | none => rw [receive_calc_none r hrel] at h; exact Option.noConfusion h
  | some rc' =>
    cases hs : r.success with
    | true =>
      cases ha : r.args with
      | nil =>
        unfold RandomThinker.receive_calc at h
        rw [hrel, hs, ha] at h
        have h' : (none : Option ThinkerState) = some s' := h
        exact Option.noConfusion h'
      | cons a rest =>
        rw [receive_calc_success hrel hs ha] at h
        cases h
        exact ⟨rfl, fun _ => ⟨a, rest, rfl, rfl, rfl, rfl, rfl⟩,
          fun hf => Bool.noConfusion hf⟩
    | false =>
      rw [receive_calc_failure hrel hs] at h
      cases h
      exact ⟨rfl, fun ht => Bool.noConfusion ht,
        fun _ => ⟨rfl, rfl, rfl, rfl, rfl⟩⟩

theorem length_dbInsert (db : List (String × String)) (k v : String) :
    db.length ≤ (dbInsert db k v).length := by
  unfold dbInsert
  split
  · rw [List.length_map]
  · rw [List.length_append]
    omega

/-- C9: every result consumed by `receive_calc` — successful or failed —
is appended exactly once to `simulation_results`: consuming the sequence
`rs` from any state in which the processing agent holds enough `simulate`
slots and every successful result carries its input extends the log by
exactly `rs`, in order, so the log length always equals the number of
results consumed and entries are never removed, replaced or reordered. -/
theorem simulation_results_append_only (s : ThinkerState) (rs : List Result)
    (hlab : "simulate" ∈ s.rc.labels)
    (hn : (rs.length : Int) ≤ s.rc.inUse "simulate")
    (ha : ∀ r ∈ rs, r.success = true → r.args ≠ []) :
    ∃ s', runReceives s rs = some s' ∧
      s'.simulation_results = s.simulation_results ++ rs ∧
      s'.simulation_results.length = s.simulation_results.length + rs.length := by
  induction rs generalizing s with
  | nil => exact ⟨s, rfl, by simp, by simp⟩
  | cons r rs ih =>
    have hone : (1 : Int) ≤ s.rc.inUse "simulate" := by
      have : ((r :: rs).length : Int) = rs.length + 1 := by simp
      omega
    have hrel : s.rc.release "simulate" 1 =
        some { s.rc with
          available := Function.update s.rc.available "simulate"
            (s.rc.available "simulate" + (1 : Nat))
          inUse := Function.update s.rc.inUse "simulate"
            (s.rc.inUse "simulate" - (1 : Nat)) } := by
      unfold ResourceCounter.release
      rw [if_pos ⟨hlab, by exact_mod_cast hone⟩]
    have hstep : ∃ s₁, RandomThinker.receive_calc s r = some s₁ ∧
        s₁.simulation_results = s.simulation_results ++ [r] ∧
        s₁.rc.labels = s.rc.labels ∧
        s₁.rc.inUse "simulate" = s.rc.inUse "simulate" - 1 := by
      cases hs : r.success with
      | true =>
        have hne := ha r (List.mem_cons_self _ _) hs
        cases hargs : r.args with
        | nil => exact absurd hargs hne
        | cons a rest =>
          refine ⟨_, receive_calc_success hrel hs hargs, rfl, rfl, ?_⟩
          show Function.update s.rc.inUse "simulate"
              (s.rc.inUse "simulate" - (1 : Nat)) "simulate"
            = s.rc.inUse "simulate" - 1
          rw [Function.update_same]
          simp
      | false =>
        refine ⟨_, receive_calc_failure hrel hs, rfl, rfl, ?_⟩
        show Function.update s.rc.inUse "simulate"
            (s.rc.inUse "simulate" - (1 : Nat)) "simulate"
          = s.rc.inUse "simulate" - 1
        rw [Function.update_same]
        simp
    obtain ⟨s₁, h₁, hres, hlab₁, hiu₁⟩ := hstep
    have hlen : ((rs.length : Int)) ≤ s₁.rc.inUse "simulate" := by
      rw [hiu₁]
      have : ((r :: rs).length : Int) = rs.length + 1 := by simp
      omega
    obtain ⟨s', hrun, hsim, hcount⟩ :=
      ih s₁ (hlab₁ ▸ hlab) hlen fun x hx => ha x (List.mem_cons_of_mem _ hx)
    refine ⟨s', ?_, ?_, ?_⟩
    · unfold runReceives
      rw [h₁]
      exact hrun
    · rw [hsim, hres, List.append_assoc]
      rfl
    · rw [hcount, hres, List.length_append]
      simp
      omega

/-- Witness for C9: from the sample state holding two `simulate` slots,
consuming one success and one failure appends exactly those two results. -/
theorem simulation_results_append_only_witness :
    ("simulate" ∈ thinkerSample.rc.labels ∧
      (([resultOk, resultFail].length : Int) ≤ thinkerSample.rc.inUse "simulate") ∧
      (∀ r ∈ [resultOk, resultFail], r.success = true → r.args ≠ [])) ∧
    (∃ s', runReceives thinkerSample [resultOk, resultFail] = some s' ∧
      s'.simulation_results = thinkerSample.simulation_results ++ [resultOk, resultFail] ∧
      s'.simulation_results.length
        = thinkerSample.simulation_results.length + [resultOk, resultFail].length) :=
  ⟨⟨by decide, by decide, by decide⟩,
    simulation_results_append_only thinkerSample [resultOk, resultFail]
      (by decide) (by decide) (by decide)⟩

/-- C7: a failed task never crashes the processing agent.  Feeding a
`success=false` result through `receive_calc` (with the slot held)
completes normally: the `simulate` slot is released, the failure
description is logged, the database is untouched and the result is
recorded; and in the replacement policy of the batch loop, the failed
future is replaced by a freshly submitted candidate, leaving the number
of pending futures unchanged and the training data untouched. -/
theorem failure_released_logged_replaced (s : ThinkerState) (r : Result)
    (rc' : ResourceCounter) (bs : BatchLoopState) (completed replacement : String)
    (hrel : s.rc.release "simulate" 1 = some rc')
    (hs : r.success = false)
    (hfut : completed ∈ bs.sim_futures) :
    RandomThinker.receive_calc s r = some { s with
      rc := rc'
      warnings := s.warnings ++ [r.failure_info]
      simulation_results := s.simulation_results ++ [r] } ∧
    (batchLoopStep bs completed none replacement).sim_futures.length
      = bs.sim_futures.length ∧
    replacement ∈ (batchLoopStep bs completed none replacement).sim_futures ∧
    (batchLoopStep bs completed none replacement).train_data = bs.train_data := by
  refine ⟨receive_calc_failure hrel hs, ?_, ?_, rfl⟩
  · show (bs.sim_futures.erase completed ++ [replacement]).length = _
    rw [List.length_append]
    have := List.length_erase_add_one hfut
    simp only [List.length_singleton]
    omega
  · show replacement ∈ bs.sim_futures.erase completed ++ [replacement]
    exact List.mem_append_right _ (List.mem_singleton_self _)

theorem receive_calc_frame {s : ThinkerState} {r : Result} {s' : ThinkerState}
    (h : RandomThinker.receive_calc s r = some s') :
    s'.requests = s.requests ∧ s'.priority_list = s.priority_list ∧
    s'.simulation_results = s.simulation_results ++ [r] ∧
    s'.n_to_evaluate = s.n_to_evaluate := by
  obtain ⟨-, hsucc, hfail⟩ := receive_calc_some h
  cases hs : r.success with
  | true =>
    obtain ⟨a, rest, -, -, -, hsim, hn⟩ := hsucc hs
    obtain ⟨hreq, hpri⟩ : s'.requests = s.requests ∧ s'.priority_list = s.priority_list := by
      cases hrel : s.rc.release "simulate" 1 with
      | none => rw [receive_calc_none r hrel] at h; exact Option.noConfusion h
      | some rc' =>
        cases ha : r.args with
        | nil =>
          unfold RandomThinker.receive_calc at h
          rw [hrel, hs, ha] at h
          have h' : (none : Option ThinkerState) = some s' := h
          exact Option.noConfusion h'
        | cons a rest =>
          rw [receive_calc_success hrel hs ha] at h
          cases h
          exact ⟨rfl, rfl⟩
    exact ⟨hreq, hpri, hsim, hn⟩
  | false =>
    obtain ⟨-, -, -, hsim, hn⟩ := hfail hs
    obtain ⟨hreq, hpri⟩ : s'.requests = s.requests ∧ s'.priority_list = s.priority_list := by
      cases hrel : s.rc.release "simulate" 1 with
      | none => rw [receive_calc_none r hrel] at h; exact Option.noConfusion h
      | some rc' =>
        rw [receive_calc_failure hrel hs] at h
        cases h
        exact ⟨rfl, rfl⟩
    exact ⟨hreq, hpri, hsim, hn⟩

theorem submit_calc_some {s s' : ThinkerState}
    (h : RandomThinker.submit_calc s = some s') :
    ∃ rc' mol, s.rc.acquire "simulate" 1 = some rc' ∧
      s.priority_list.getLast? = some mol ∧
      s' = { s with
              rc := rc'
              priority_list := s.priority_list.dropLast
              requests := s.requests ++ [mol] } := by
  unfold RandomThinker.submit_calc at h
  cases hacq : s.rc.acquire "simulate" 1 with
  | none =>
    rw [hacq] at h
    exact Option.noConfusion h
  | some rc' =>
    rw [hacq] at h
    cases hlast : s.priority_list.getLast? with
    | none =>
      rw [hlast] at h
      exact Option.noConfusion h
    | some mol =>
      rw [hlast] at h
      cases h
      exact ⟨rc', mol, rfl, rfl, rfl⟩

theorem init_rc (n N : Nat) (P : List String) :
    (RandomThinker.init n N P).rc
      = ((ResourceCounter.init N ["simulate", "train", "infer"]).reallocate
          none "simulate" N).getD
            (ResourceCounter.init N ["simulate", "train", "infer"]) := rfl

theorem TInv_init (n N : Nat) (P : List String) :
    TInv N P (RandomThinker.init n N P) := by
  have hded : (["simulate", "train", "infer"] : List String).dedup
      = ["simulate", "train", "infer"] := by decide
  have hrc0 : RCInv N (ResourceCounter.init N ["simulate", "train", "infer"]) :=
    RCInv.init N _
  have hz : (RandomThinker.init n N P).rc.inUse "simulate" = 0 := by
    rw [init_rc]
    cases hrl : (ResourceCounter.init N ["simulate", "train", "infer"]).reallocate
        none "simulate" N with
    | none => rfl
    | some rc' =>
      obtain ⟨-, -, -, -, hiua, -⟩ := reallocate_none_some hrl
      show rc'.inUse "simulate" = 0
      rw [hiua]
      rfl
  refine ⟨?_, ?_, ?_, ?_⟩
  · rw [init_rc]
    cases hrl : (ResourceCounter.init N ["simulate", "train", "infer"]).reallocate
        none "simulate" N with
    | none => simpa using hrc0
    | some rc' => simpa using hrc0.reallocate hrl
  · rw [init_rc]
    cases hrl : (ResourceCounter.init N ["simulate", "train", "infer"]).reallocate
        none "simulate" N with
    | none =>
      show (ResourceCounter.init N ["simulate", "train", "infer"]).labels = _
      rw [ResourceCounter.init]
      exact hded
    | some rc' =>
      obtain ⟨-, -, hlab, -, -, -⟩ := reallocate_none_some hrl
      show rc'.labels = _
      rw [hlab, ResourceCounter.init]
      exact hded
  · show (([] : List String).length : Int)
      = (([] : List Result).length : Int) + (RandomThinker.init n N P).rc.inUse "simulate"
    rw [hz]
    simp
  · show P ++ ([] : List String).reverse = P
    simp

theorem TInv_step {N : Nat} {P : List String} {s : ThinkerState} (e : ThinkerEvent)
    (h : TInv N P s) : TInv N P ((s.step e).getD s) := by
  obtain ⟨hrc, hlab, hcount, hpri⟩ := h
  cases e with
  | submit =>
    show TInv N P ((RandomThinker.submit_calc s).getD s)
    cases hsub : RandomThinker.submit_calc s with
    | none => exact ⟨hrc, hlab, hcount, hpri⟩
    | some s' =>
      show TInv N P s'
      obtain ⟨rc', mol, hacq, hlast, hs'⟩ := submit_calc_some hsub
      obtain ⟨hmem, -, hlabs, hava, hiua, -⟩ := acquire_some hacq
      subst hs'
      refine ⟨hrc.acquire hacq, hlabs.trans hlab, ?_, ?_⟩
      · show ((s.requests ++ [mol]).length : Int)
          = s.simulation_results.length + rc'.inUse "simulate"
        rw [hiua, Function.update_same]
        simp only [List.length_append, List.length_singleton]
        push_cast
        omega
      · show s.priority_list.dropLast ++ (s.requests ++ [mol]).reverse = P
        rw [List.reverse_append,
          show ([mol] : List String).reverse = [mol] from rfl,
          ← List.append_assoc,
          List.dropLast_append_getLast? mol (Option.mem_def.mpr hlast)]
        exact hpri
  | receive r =>
    show TInv N P ((RandomThinker.receive_calc s r).getD s)
    cases hrec : RandomThinker.receive_calc s r with
    | none => exact ⟨hrc, hlab, hcount, hpri⟩
    | some s' =>
      show TInv N P s'
      obtain ⟨hreq, hpril, hsim, -⟩ := receive_calc_frame hrec
      obtain ⟨hrel, -, -⟩ := receive_calc_some hrec
      obtain ⟨-, -, hlabs, -, hiua, -⟩ := release_some hrel
      refine ⟨hrc.release hrel, hlabs.trans hlab, ?_, ?_⟩
      · rw [hreq, hsim, hiua, Function.update_same]
        simp only [List.length_append, List.length_singleton]
        push_cast
        omega
      · rw [hpril, hreq]
        exact hpri

theorem TInv_run {N : Nat} {P : List String} {s : ThinkerState}
    (tr : List ThinkerEvent) (h : TInv N P s) : TInv N P (s.run tr) := by
  induction tr generalizing s with
  | nil => exact h
  | cons e tr ih => exact ih (TInv_step e h)

/-- C4: the throttled policy never has more outstanding tasks than worker
slots.  Over any interleaving of `submit_calc` and `receive_calc` steps
from a fresh `RandomThinker` with `N` parallel slots, the number of
submitted requests never exceeds the number of processed results plus
`N` — each submission is preceded by acquiring one `simulate` slot, and a
slot is freed only when the matching result is processed, so at every
reachable instant at most `N` tasks are concurrently outstanding. -/
theorem throttled_outstanding_bound (n N : Nat) (P : List String)
    (tr : List ThinkerEvent) :
    ((RandomThinker.init n N P).run tr).requests.length
      ≤ ((RandomThinker.init n N P).run tr).simulation_results.length + N := by
  have hinv := TInv_run tr (TInv_init n N P)
  obtain ⟨⟨hnd, htot, hun, hav, hiu⟩, hlab, hcount, -⟩ := hinv
  set sf := (RandomThinker.init n N P).run tr with hsf
  have hmem : "simulate" ∈ sf.rc.labels := by
    rw [hlab]
    exact List.mem_cons_self _ _
  have hle : sf.rc.allocated "simulate" ≤ (sf.rc.labels.map sf.rc.allocated).sum :=
    le_sum_of_mem hmem fun l _ => by
      unfold ResourceCounter.allocated
      have := hav l
      have := hiu l
      omega
  have hiu' : sf.rc.inUse "simulate" ≤ sf.rc.allocated "simulate" := by
    unfold ResourceCounter.allocated
    have := hav "simulate"
    omega
  unfold ResourceCounter.total at htot
  omega

/-- C10: `submit_calc` pops the shared priority list without an emptiness
check.  Over any interleaving from a fresh `RandomThinker` on a candidate
list `P` of distinct molecules: the remaining priority list plus the
submitted requests always reconstruct `P`, so every pop consumes a fresh
candidate and no distinct molecule is ever submitted twice; as long as
fewer molecules have been submitted than `P` holds, the list is non-empty
and the next pop succeeds; and once the list is empty a further
`submit_calc` faults (the unchecked `pop` raises). -/
theorem submit_calc_pop_safety (n N : Nat) (P : List String)
    (tr : List ThinkerEvent) (hP : P.Nodup) :
    (((RandomThinker.init n N P).run tr).priority_list ++
        ((RandomThinker.init n N P).run tr).requests.reverse = P) ∧
    ((RandomThinker.init n N P).run tr).requests.Nodup ∧
    (((RandomThinker.init n N P).run tr).requests.length < P.length →
      ((RandomThinker.init n N P).run tr).priority_list ≠ []) ∧
    (((RandomThinker.init n N P).run tr).priority_list = [] →
      RandomThinker.submit_calc ((RandomThinker.init n N P).run tr) = none) := by
  obtain ⟨-, -, -, hpri⟩ := TInv_run tr (TInv_init n N P)
  set sf := (RandomThinker.init n N P).run tr with hsf
  have hsuf : sf.requests.reverse.Sublist P :=
    List.IsSuffix.sublist ⟨sf.priority_list, hpri⟩
  refine ⟨hpri, List.nodup_reverse.mp (hP.sublist hsuf), ?_, ?_⟩
  · intro hlen hempty
    rw [hempty, List.nil_append] at hpri
    have : sf.requests.reverse.length = P.length := by rw [hpri]
    rw [List.length_reverse] at this
    omega
  · intro hempty
    unfold RandomThinker.submit_calc
    cases hacq : sf.rc.acquire "simulate" 1 with
    | none => rfl
    | some rc' =>
      rw [hempty]
      rfl

/-- Witness for C10 on a concrete run: two distinct candidates, four
slots, and a trace that submits twice and processes one result. -/
theorem submit_calc_pop_safety_witness :
    (["C", "O"] : List String).Nodup ∧
    ((((RandomThinker.init 8 4 ["C", "O"]).run
        [ThinkerEvent.submit, ThinkerEvent.receive resultOk,
          ThinkerEvent.submit]).priority_list ++
      ((RandomThinker.init 8 4 ["C", "O"]).run
        [ThinkerEvent.submit, ThinkerEvent.receive resultOk,
          ThinkerEvent.submit]).requests.reverse = ["C", "O"]) ∧
    ((RandomThinker.init 8 4 ["C", "O"]).run
      [ThinkerEvent.submit, ThinkerEvent.receive resultOk,
        ThinkerEvent.submit]).requests.Nodup ∧
    (((RandomThinker.init 8 4 ["C", "O"]).run
      [ThinkerEvent.submit, ThinkerEvent.receive resultOk,
        ThinkerEvent.submit]).requests.length < (["C", "O"] : List String).length →
      ((RandomThinker.init 8 4 ["C", "O"]).run
        [ThinkerEvent.submit, ThinkerEvent.receive resultOk,
          ThinkerEvent.submit]).priority_list ≠ []) ∧
    (((RandomThinker.init 8 4 ["C", "O"]).run
      [ThinkerEvent.submit, ThinkerEvent.receive resultOk,
        ThinkerEvent.submit]).priority_list = [] →
      RandomThinker.submit_calc ((RandomThinker.init 8 4 ["C", "O"]).run
        [ThinkerEvent.submit, ThinkerEvent.receive resultOk,
          ThinkerEvent.submit]) = none)) :=
  ⟨by decide, submit_calc_pop_safety 8 4 ["C", "O"]
    [ThinkerEvent.submit, ThinkerEvent.receive resultOk, ThinkerEvent.submit]
    (by decide)⟩

theorem receive_calc_done_inv {s : ThinkerState} {r : Result} {s' : ThinkerState}
    (h : RandomThinker.receive_calc s r = some s')
    (hd : s.done = decide (s.n_to_evaluate ≤ s.database.length)) :
    s'.done = decide (s'.n_to_evaluate ≤ s'.database.length) := by
  obtain ⟨-, hsucc, hfail⟩ := receive_calc_some h
  cases hs : r.success with
  | false =>
    obtain ⟨hdb, hdone, -, -, hn⟩ := hfail hs
    rw [hdone, hdb, hn, hd]
  | true =>
    obtain ⟨a, rest, -, hdb, hdone, -, hn⟩ := hsucc hs
    rw [hdone, hdb, hn, hd]
    by_cases hc : s.n_to_evaluate ≤ (dbInsert s.database a r.value).length
    · simp [hc]
    · have hnp : ¬s.n_to_evaluate ≤ s.database.length :=
        fun hh => hc (le_trans hh (length_dbInsert s.database a r.value))
      simp [hc, hnp]

theorem runReceives_done_inv {s : ThinkerState} {rs : List Result} {s' : ThinkerState}
    (h : runReceives s rs = some s')
    (hd : s.done = decide (s.n_to_evaluate ≤ s.database.length)) :
    s'.done = decide (s'.n_to_evaluate ≤ s'.database.length) ∧
    s'.n_to_evaluate = s.n_to_evaluate := by
  induction rs generalizing s with
  | nil =>
    cases h
    exact ⟨hd, rfl⟩
  | cons r rs ih =>
    unfold runReceives at h
    cases hrec : RandomThinker.receive_calc s r with
    | none => rw [hrec] at h; exact Option.noConfusion h
    | some s₁ =>
      rw [hrec] at h
      obtain ⟨hfin, hn⟩ := ih h (receive_calc_done_inv hrec hd)
      obtain ⟨-, -, -, hn₁⟩ := receive_calc_frame hrec
      exact ⟨hfin, hn.trans hn₁⟩

/-- C3: the result-processing contract of `receive_calc`.  (1) The slot
release comes first: when it fails nothing else happens; (2) on a
consumed result the `simulate` slot of that task type is released, and
the result is stored in the database keyed by its first input exactly
when it is a success (a failure leaves database and termination signal
untouched); (3) over any consumed result sequence, from a state whose
one-shot signal tracks the stopping condition (as in a fresh thinker),
the termination signal ends set exactly when the database size has
reached the target count `n_to_evaluate`. -/
theorem receive_calc_contract (s : ThinkerState) (rs : List Result)
    (hd : s.done = decide (s.n_to_evaluate ≤ s.database.length)) :
    (∀ r, s.rc.release "simulate" 1 = none →
      RandomThinker.receive_calc s r = none) ∧
    (∀ r s', RandomThinker.receive_calc s r = some s' →
      s.rc.release "simulate" 1 = some s'.rc ∧
      (r.success = true → ∃ a rest, r.args = a :: rest ∧
        s'.database = dbInsert s.database a r.value) ∧
      (r.success = false → s'.database = s.database ∧ s'.done = s.done)) ∧
    (∀ s', runReceives s rs = some s' →
      (s'.done = true ↔ s.n_to_evaluate ≤ s'.database.length)) := by
  refine ⟨receive_calc_none, ?_, ?_⟩
  · intro r s' h
    obtain ⟨hrel, hsucc, hfail⟩ := receive_calc_some h
    refine ⟨hrel, ?_, ?_⟩
    · intro hs
      obtain ⟨a, rest, ha, hdb, -, -, -⟩ := hsucc hs
      exact ⟨a, rest, ha, hdb⟩
    · intro hs
      obtain ⟨hdb, hdone, -, -, -⟩ := hfail hs
      exact ⟨hdb, hdone⟩
  · intro s' h
    obtain ⟨hfin, hn⟩ := runReceives_done_inv h hd
    rw [hfin, hn, decide_eq_true_iff]

/-- Witness for C3 at the sample thinker (signal unset, empty database,
target of one success) consuming one successful result. -/
theorem receive_calc_contract_witness :
    (thinkerSample.done
      = decide (thinkerSample.n_to_evaluate ≤ thinkerSample.database.length)) ∧
    ((∀ r, thinkerSample.rc.release "simulate" 1 = none →
      RandomThinker.receive_calc thinkerSample r = none) ∧
    (∀ r s', RandomThinker.receive_calc thinkerSample r = some s' →
      thinkerSample.rc.release "simulate" 1 = some s'.rc ∧
      (r.success = true → ∃ a rest, r.args = a :: rest ∧
        s'.database = dbInsert thinkerSample.database a r.value) ∧
      (r.success = false → s'.database = thinkerSample.database ∧
        s'.done = thinkerSample.done)) ∧
    (∀ s', runReceives thinkerSample [resultOk] = some s' →
      (s'.done = true ↔ thinkerSample.n_to_evaluate ≤ s'.database.length))) :=
  ⟨by decide, receive_calc_contract thinkerSample [resultOk] (by decide)⟩

theorem escape_ne_nil_of_ne_nil {c : Char} {cs : List Char} :
    escape (c :: cs) ≠ [] := by
  show escapeChar c ++ escape cs ≠ []
  unfold escapeChar
  by_cases h1 : c = '\\'
  · simp [h1]
  by_cases h2 : c = '\t'
  · simp [h1, h2]
  by_cases h3 : c = '\n'
  · simp [h1, h2, h3]
  · simp [h1, h2, h3]

theorem unescape_escape (s : List Char) : unescape (escape s) = s := by
  induction s with
  | nil => rfl
  | cons c cs ih =>
    show unescape (escapeChar c ++ escape cs) = c :: cs
    by_cases h1 : c = '\\'
    · subst h1
      show unescape ('\\' :: '\\' :: escape cs) = _
      rw [unescape, if_pos rfl, if_neg (by decide), if_neg (by decide), ih]
    · by_cases h2 : c = '\t'
      · subst h2
        show unescape ('\\' :: 't' :: escape cs) = _
        rw [unescape, if_pos rfl, if_neg (by decide), if_pos rfl, ih]
      · by_cases h3 : c = '\n'
        · subst h3
          show unescape ('\\' :: 'n' :: escape cs) = _
          rw [unescape, if_pos rfl, if_pos rfl, ih]
        · have hc : escapeChar c = [c] := by
            unfold escapeChar
            rw [if_neg h1, if_neg h2, if_neg h3]
          rw [hc]
          show unescape (c :: escape cs) = c :: cs
          cases he : escape cs with
          | nil =>
            cases cs with
            | nil => rfl
            | cons d ds => exact absurd he escape_ne_nil_of_ne_nil
          | cons d ds =>
            have h' : unescape (c :: d :: ds) = c :: unescape (d :: ds) := by
              show (if c = '\\' then
                  (if d = 'n' then '\n' else if d = 't' then '\t' else d) :: unescape ds
                else c :: unescape (d :: ds)) = c :: unescape (d :: ds)
              rw [if_neg h1]
            rw [h', ← he, ih]

theorem escapeChar_mem {c x : Char} (hx : x ∈ escapeChar c) :
    x ≠ '\t' ∧ x ≠ '\n' := by
  unfold escapeChar at hx
  by_cases h1 : c = '\\'
  · rw [if_pos h1] at hx
    rcases List.mem_cons.mp hx with rfl | hx
    · exact ⟨by decide, by decide⟩
    · rcases List.mem_singleton.mp hx with rfl
      exact ⟨by decide, by decide⟩
  · rw [if_neg h1] at hx
    by_cases h2 : c = '\t'
    · rw [if_pos h2] at hx
      rcases List.mem_cons.mp hx with rfl | hx
      · exact ⟨by decide, by decide⟩
      · rcases List.mem_singleton.mp hx with rfl
        exact ⟨by decide, by decide⟩
    · rw [if_neg h2] at hx
      by_cases h3 : c = '\n'
      · rw [if_pos h3] at hx
        rcases List.mem_cons.mp hx with rfl | hx
        · exact ⟨by decide, by decide⟩
        · rcases List.mem_singleton.mp hx with rfl
          exact ⟨by decide, by decide⟩
      · rw [if_neg h3] at hx
        rcases List.mem_singleton.mp hx with rfl
        exact ⟨h2, h3⟩

theorem escape_mem {s : List Char} {x : Char} (hx : x ∈ escape s) :
    x ≠ '\t' ∧ x ≠ '\n' := by
  induction s with
  | nil => cases hx
  | cons c cs ih =>
    rcases List.mem_append.mp hx with h | h
    · exact escapeChar_mem h
    · exact ih h

theorem splitSep_no_sep {sep : Char} {f : List Char} (h : sep ∉ f) :
    splitSep sep f = [f] := by
  induction f with
  | nil => rfl
  | cons c cs ih =>
    simp only [List.mem_cons, not_or] at h
    rw [splitSep, if_neg fun e => h.1 e.symm, ih h.2]

theorem splitSep_append {sep : Char} {f rest : List Char} (h : sep ∉ f) :
    splitSep sep (f ++ sep :: rest) = f :: splitSep sep rest := by
  induction f with
  | nil =>
    show splitSep sep (sep :: rest) = [] :: splitSep sep rest
    rw [splitSep, if_pos rfl]
  | cons c cs ih =>
    simp only [List.mem_cons, not_or] at h
    show splitSep sep (c :: (cs ++ sep :: rest)) = _
    rw [splitSep, if_neg fun e => h.1 e.symm, ih h.2]

theorem splitSep_joinSep {sep : Char} {fs : List (List Char)} (hfs : fs ≠ [])
    (h : ∀ f ∈ fs, sep ∉ f) : splitSep sep (joinSep sep fs) = fs := by
  induction fs with
  | nil => exact absurd rfl hfs
  | cons f fs ih =>
    cases fs with
    | nil => exact splitSep_no_sep (h f (List.mem_cons_self _ _))
    | cons g gs =>
      show splitSep sep (f ++ sep :: joinSep sep (g :: gs)) = _
      rw [splitSep_append (h f (List.mem_cons_self _ _)),
        ih (by simp) fun x hx => h x (List.mem_cons_of_mem _ hx)]

theorem mem_joinSep {sep : Char} {fs : List (List Char)} {x : Char}
    (h : x ∈ joinSep sep fs) : x = sep ∨ ∃ f ∈ fs, x ∈ f := by
  induction fs with
  | nil => cases h
  | cons f fs ih =>
    cases fs with
    | nil => exact Or.inr ⟨f, List.mem_cons_self _ _, h⟩
    | cons g gs =>
      have h' : x ∈ f ++ sep :: joinSep sep (g :: gs) := h
      rcases List.mem_append.mp h' with hf | hrest
      · exact Or.inr ⟨f, List.mem_cons_self _ _, hf⟩
      · rcases List.mem_cons.mp hrest with rfl | h2
        · exact Or.inl rfl
        · rcases ih h2 with hx | ⟨f', hf', hx⟩
          · exact Or.inl hx
          · exact Or.inr ⟨f', List.mem_cons_of_mem _ hf', hx⟩

theorem natDigitsAux_lt : ∀ (fuel n : Nat), ∀ d ∈ natDigitsAux fuel n, d < 10 := by
  intro fuel
  induction fuel with
  | zero =>
    intro n d hd
    cases n with
    | zero => cases hd
    | succ m => cases hd
  | succ fuel ih =>
    intro n d hd
    cases n with
    | zero => cases hd
    | succ m =>
      rw [natDigitsAux] at hd
      rcases List.mem_cons.mp hd with rfl | hd
      · exact Nat.mod_lt _ (by norm_num)
      · exact ih _ d hd

theorem ofDigits_natDigitsAux : ∀ (fuel n : Nat), n ≤ fuel →
    ofDigits10 (natDigitsAux fuel n) = n := by
  intro fuel
  induction fuel with
  | zero =>
    intro n hn
    have : n = 0 := Nat.le_zero.mp hn
    subst this
    rfl
  | succ fuel ih =>
    intro n hn
    cases n with
    | zero => rfl
    | succ m =>
      rw [natDigitsAux, ofDigits10,
        ih ((m + 1) / 10) (by
          have := Nat.div_lt_self (Nat.succ_pos m) (by norm_num : 1 < 10)
          omega),
        Nat.mod_add_div]

theorem digit_roundtrip {d : Nat} (h : d < 10) : charDigit (digitChar d) = d := by
  interval_cases d <;> rfl

theorem digitChar_ne_sep {d : Nat} (h : d < 10) :
    digitChar d ≠ '\t' ∧ digitChar d ≠ '\n' := by
  interval_cases d <;> exact ⟨by decide, by decide⟩

theorem decNat_encNat (n : Nat) : decNat (encNat n) = n := by
  unfold decNat encNat
  rw [List.map_map]
  have hmap : (natDigitsAux n n).map (charDigit ∘ digitChar) = natDigitsAux n n := by
    have : ∀ ds : List Nat, (∀ d ∈ ds, d < 10) →
        ds.map (charDigit ∘ digitChar) = ds := by
      intro ds hds
      induction ds with
      | nil => rfl
      | cons d ds ih =>
        rw [List.map_cons, Function.comp_apply,
          digit_roundtrip (hds d (List.mem_cons_self _ _)),
          ih fun x hx => hds x (List.mem_cons_of_mem _ hx)]
    exact this _ (natDigitsAux_lt n n)
  rw [hmap]
  exact ofDigits_natDigitsAux n n (Nat.le_refl n)

theorem encNat_mem {n : Nat} {x : Char} (hx : x ∈ encNat n) :
    x ≠ '\t' ∧ x ≠ '\n' := by
  obtain ⟨d, hd, rfl⟩ := List.mem_map.mp hx
  exact digitChar_ne_sep (natDigitsAux_lt n n d hd)

theorem encBool_mem {b : Bool} {x : Char} (hx : x ∈ encBool b) :
    x ≠ '\t' ∧ x ≠ '\n' := by
  cases b <;> rcases List.mem_singleton.mp hx with rfl <;>
    exact ⟨by decide, by decide⟩

theorem resultFields_mem (r : Result) :
    ∀ f ∈ resultFields r, ∀ x ∈ f, x ≠ '\t' ∧ x ≠ '\n' := by
  intro f hf x hx
  unfold resultFields at hf
  rcases List.mem_cons.mp hf with rfl | hf
  · exact escape_mem hx
  rcases List.mem_cons.mp hf with rfl | hf
  · exact encNat_mem hx
  rcases List.mem_append.mp hf with hargs | hrest
  · obtain ⟨a, -, rfl⟩ := List.mem_map.mp hargs
    exact escape_mem hx
  · simp only [List.mem_cons, List.not_mem_nil, or_false] at hrest
    rcases hrest with rfl | rfl | rfl | rfl | rfl | rfl
    · exact encBool_mem hx
    · exact escape_mem hx
    · exact escape_mem hx
    · exact encNat_mem hx
    · exact encNat_mem hx
    · exact encNat_mem hx

theorem encodeResult_no_newline (r : Result) : '\n' ∉ encodeResult r := by
  intro h
  rcases mem_joinSep h with h | ⟨f, hf, hmem⟩
  · exact absurd h (by decide)
  · exact (resultFields_mem r f hf '\n' hmem).2 rfl

theorem encodeResult_ne_nil (r : Result) : encodeResult r ≠ [] := by
  obtain ⟨m, args, succ, v, fi, t1, t2, t3⟩ := r
  show escape m.data ++ '\t' ::
    joinSep '\t' (encNat args.length ::
      (args.map (fun a => escape a.data) ++
        [encBool succ, escape v.data, escape fi.data,
          encNat t1, encNat t2, encNat t3])) ≠ []
  intro h
  obtain ⟨-, h2⟩ := List.append_eq_nil.mp h
  exact List.noConfusion h2

theorem string_roundtrip (s : String) : String.mk (unescape (escape s.data)) = s := by
  rw [unescape_escape]

theorem map_string_roundtrip (args : List String) :
    args.map (fun a => String.mk (unescape (escape a.data))) = args := by
  induction args with
  | nil => rfl
  | cons a args ih =>
    rw [List.map_cons, string_roundtrip, ih]

theorem decBool_encBool (b : Bool) : decBool (encBool b) = b := by
  cases b <;> rfl

theorem decodeResult_encodeResult (r : Result) :
    decodeResult (encodeResult r) = some r := by
  obtain ⟨m, args, succ, v, fi, t1, t2, t3⟩ := r
  have hlen : (args.map fun a => escape a.data).length = args.length := by simp
  have hsplit : splitSep '\t' (encodeResult ⟨m, args, succ, v, fi, t1, t2, t3⟩)
      = resultFields ⟨m, args, succ, v, fi, t1, t2, t3⟩ :=
    splitSep_joinSep (by simp [resultFields])
      fun f hf hx => (resultFields_mem _ f hf '\t' hx).1 rfl
  unfold decodeResult
  rw [hsplit]
  simp only [resultFields, decNat_encNat, List.drop_left' hlen, List.take_left' hlen,
    List.map_map, Function.comp_def, string_roundtrip, map_string_roundtrip,
    decBool_encBool, List.map_id']

theorem decodeLines_encode (rs : List Result) :
    decodeLines (rs.map encodeResult) = some rs := by
  induction rs with
  | nil => rfl
  | cons r rs ih =>
    show decodeLines (encodeResult r :: rs.map encodeResult) = _
    rw [decodeLines, decodeResult_encodeResult, ih]

theorem encodeFile_ne_nil (r : Result) (rs : List Result) :
    encodeFile (r :: rs) ≠ [] := by
  cases rs with
  | nil => exact encodeResult_ne_nil r
  | cons r' rs' =>
    show encodeResult r ++ '\n' ::
      joinSep '\n' (encodeResult r' :: rs'.map encodeResult) ≠ []
    intro h
    obtain ⟨-, h2⟩ := List.append_eq_nil.mp h
    exact List.noConfusion h2

/-- C8: write-then-read round trip of the persisted result log.  Every
record is serialized as exactly one self-contained line — the lines of the
file are precisely the encoded records, in order — and parsing the file
back line by line recovers exactly the original sequence of records with
their method, inputs, success flag, value-or-failure and the
eligible/started/finished timestamps. -/
theorem results_log_roundtrip (rs : List Result) :
    decodeFile (encodeFile rs) = some rs ∧
    (rs ≠ [] → splitSep '\n' (encodeFile rs) = rs.map encodeResult) := by
  have hlines : rs ≠ [] → splitSep '\n' (encodeFile rs) = rs.map encodeResult := by
    intro hne
    refine splitSep_joinSep ?_ ?_
    · cases rs with
      | nil => exact absurd rfl hne
      | cons r rs => simp
    · intro f hf hx
      obtain ⟨r, -, rfl⟩ := List.mem_map.mp hf
      exact encodeResult_no_newline r hx
  refine ⟨?_, hlines⟩
  cases rs with
  | nil => rfl
  | cons r rs =>
    unfold decodeFile
    rw [if_neg (encodeFile_ne_nil r rs), hlines (by simp), decodeLines_encode]

/-- Witness for C8 at a concrete two-record log. -/
theorem results_log_roundtrip_witness :
    decodeFile (encodeFile [resultOk, resultFail]) = some [resultOk, resultFail] ∧
    (([resultOk, resultFail] : List Result) ≠ [] →
      splitSep '\n' (encodeFile [resultOk, resultFail])
        = ([resultOk, resultFail] : List Result).map encodeResult) :=
  results_log_roundtrip [resultOk, resultFail]

theorem rcSample_release :
    thinkerSample.rc.release "simulate" 1 = some rcSampleReleased := by
  show rcSample.release "simulate" 1 = some rcSampleReleased
  unfold ResourceCounter.release
  rw [if_pos ⟨by decide, by decide⟩]
  rfl

/-- Witness for C7: the failed sample result fed through `receive_calc`
at the sample state, and a replacement submission in the batch loop. -/
theorem failure_released_logged_replaced_witness :
    thinkerSample.rc.release "simulate" 1 = some rcSampleReleased ∧
    resultFail.success = false ∧
    "N" ∈ batchSample.sim_futures ∧
    (RandomThinker.receive_calc thinkerSample resultFail = some { thinkerSample with
        rc := rcSampleReleased
        warnings := thinkerSample.warnings ++ [resultFail.failure_info]
        simulation_results := thinkerSample.simulation_results ++ [resultFail] } ∧
      (batchLoopStep batchSample "N" none "CO").sim_futures.length
        = batchSample.sim_futures.length ∧
      "CO" ∈ (batchLoopStep batchSample "N" none "CO").sim_futures ∧
      (batchLoopStep batchSample "N" none "CO").train_data = batchSample.train_data) :=
  ⟨rcSample_release, rfl, by decide,
    failure_released_logged_replaced thinkerSample resultFail rcSampleReleased
      batchSample "N" "CO" rcSample_release rfl (by decide)⟩

end MolDesign
